import Mathlib

/-!
# Parent-Browser: verification of the blockchain dashboard server

Shallow embedding of `src/requirements/app.py` and
`src/requirements/analytics.py` (ShumailaMaryam062/Parent-Browser), with
theorems settling the frozen claims about key validation, blockchain
integrity verification, the sync endpoint, and the behavioural analytics
aggregation.

Machine words are `Nat` reduced mod `2^32` where the source (via Python's
`hashlib`) works on 32-bit words; strings are Lean `String`s, encoded to
UTF-8 bytes exactly as Python's `str.encode()` does.
-/

set_option maxRecDepth 100000

namespace SHA256

/-- Reduce to a 32-bit word, the wrap-around of all SHA-256 arithmetic. -/
def w32 (n : Nat) : Nat := n % 4294967296

/-- Right rotation of a 32-bit word by `n` places. -/
def rotr (n x : Nat) : Nat := w32 ((x >>> n) ||| (x <<< (32 - n)))

/-- Bitwise complement of a 32-bit word. -/
def bnot (x : Nat) : Nat := x ^^^ 4294967295

/-- The choice function `Ch(x,y,z)` of FIPS 180-4. -/
def ch (x y z : Nat) : Nat := (x &&& y) ^^^ (bnot x &&& z)

/-- The majority function `Maj(x,y,z)` of FIPS 180-4. -/
def maj (x y z : Nat) : Nat := (x &&& y) ^^^ (x &&& z) ^^^ (y &&& z)

/-- Big sigma 0. -/
def bsig0 (x : Nat) : Nat := rotr 2 x ^^^ rotr 13 x ^^^ rotr 22 x

/-- Big sigma 1. -/
def bsig1 (x : Nat) : Nat := rotr 6 x ^^^ rotr 11 x ^^^ rotr 25 x

/-- Small sigma 0. -/
def ssig0 (x : Nat) : Nat := rotr 7 x ^^^ rotr 18 x ^^^ (x >>> 3)

/-- Small sigma 1. -/
def ssig1 (x : Nat) : Nat := rotr 17 x ^^^ rotr 19 x ^^^ (x >>> 10)

/-- The 64 round constants `K`, as decimal 32-bit words. -/
def K : List Nat :=
  [1116352408, 1899447441, 3049323471, 3921009573, 961987163,
   1508970993, 2453635748, 2870763221, 3624381080, 310598401,
   607225278, 1426881987, 1925078388, 2162078206, 2614888103,
   3248222580, 3835390401, 4022224774, 264347078, 604807628,
   770255983, 1249150122, 1555081692, 1996064986, 2554220882,
   2821834349, 2952996808, 3210313671, 3336571891, 3584528711,
   113926993, 338241895, 666307205, 773529912, 1294757372,
   1396182291, 1695183700, 1986661051, 2177026350, 2456956037,
   2730485921, 2820302411, 3259730800, 3345764771, 3516065817,
   3600352804, 4094571909, 275423344, 430227734, 506948616,
   659060556, 883997877, 958139571, 1322822218, 1537002063,
   1747873779, 1955562222, 2024104815, 2227730452, 2361852424,
   2428436474, 2756734187, 3204031479, 3329325298]

/-- The initial hash state, as decimal 32-bit words. -/
def H0 : List Nat :=
  [1779033703, 3144134277, 1013904242, 2773480762,
   1359893119, 2600822924, 528734635, 1541459225]

/-- The 8-byte big-endian encoding of `n` (the message bit length field). -/
def be64 (n : Nat) : List Nat :=
  [(n >>> 56) &&& 255, (n >>> 48) &&& 255, (n >>> 40) &&& 255,
   (n >>> 32) &&& 255, (n >>> 24) &&& 255, (n >>> 16) &&& 255,
   (n >>> 8) &&& 255, n &&& 255]

/-- FIPS 180-4 padding: `0x80`, zeros to 56 mod 64, then the bit length. -/
def padBytes (msg : List Nat) : List Nat :=
  let len := msg.length
  let zeros := (119 - len % 64) % 64
  msg ++ 0x80 :: List.replicate zeros 0 ++ be64 (8 * len)

/-- Group bytes into big-endian 32-bit words. -/
def toWords : List Nat → List Nat
  | a :: b :: c :: d :: rest =>
      ((a <<< 24) ||| (b <<< 16) ||| (c <<< 8) ||| d) :: toWords rest
  | _ => []

/-- One message-schedule extension step, over the reversed schedule
(most recent word first): `σ₁(w[t-2]) + w[t-7] + σ₀(w[t-15]) + w[t-16]`. -/
def wstep (rev : List Nat) : Nat :=
  w32 (ssig1 (rev.getD 1 0) + rev.getD 6 0 + ssig0 (rev.getD 14 0) + rev.getD 15 0)

/-- Extend the reversed schedule by `n` words. -/
def extendW : Nat → List Nat → List Nat
  | 0, rev => rev
  | n + 1, rev => extendW n (wstep rev :: rev)

/-- The 64-word message schedule of a 16-word block. -/
def schedule (block : List Nat) : List Nat :=
  (extendW 48 block.reverse).reverse

/-- One compression round on the state `[a,b,c,d,e,f,g,h]`. -/
def round (st : List Nat) (kt wt : Nat) : List Nat :=
  match st with
  | [a, b, c, d, e, f, g, h] =>
      let t1 := w32 (h + bsig1 e + ch e f g + kt + wt)
      let t2 := w32 (bsig0 a + maj a b c)
      [w32 (t1 + t2), a, b, c, w32 (d + t1), e, f, g]
  | other => other

/-- Run the 64 rounds, consuming the constants and the schedule in step. -/
def rounds : List Nat → List Nat → List Nat → List Nat
  | _, [], st => st
  | [], _, st => st
  | kt :: ks, wt :: ws, st => rounds ks ws (round st kt wt)

/-- Compress one 16-word block into the running state. -/
def compressBlock (st block : List Nat) : List Nat :=
  List.zipWith (fun x y => w32 (x + y)) st (rounds K (schedule block) st)

/-- Split a word list into 16-word blocks (`fuel` bounds the recursion;
callers pass the list length, which suffices). -/
def chunk16 : Nat → List Nat → List (List Nat)
  | 0, _ => []
  | _ + 1, [] => []
  | fuel + 1, ws => ws.take 16 :: chunk16 fuel (ws.drop 16)

/-- Fold the compression over all blocks. -/
def foldBlocks : List (List Nat) → List Nat → List Nat
  | [], st => st
  | b :: bs, st => foldBlocks bs (compressBlock st b)

/-- SHA-256 of a byte string, as eight 32-bit state words. -/
def sha256Words (msg : List Nat) : List Nat :=
  let ws := toWords (padBytes msg)
  foldBlocks (chunk16 ws.length ws) H0

/-- Lowercase hex digit for a nibble, as Python's `hexdigest` emits. -/
def hexDigit (n : Nat) : Char :=
  Char.ofNat (if n < 10 then 48 + n else 87 + n)

/-- The 8 hex characters of one 32-bit word, most significant nibble first. -/
def wordHex (w : Nat) : List Char :=
  (List.range 8).map (fun i => hexDigit ((w >>> (28 - 4 * i)) &&& 15))

/-- UTF-8 encoding of one character, as Python's `str.encode()` produces. -/
def encodeChar (c : Char) : List Nat :=
  let n := c.toNat
  if n < 128 then [n]
  else if n < 2048 then [192 ||| (n >>> 6), 128 ||| (n &&& 63)]
  else if n < 65536 then
    [224 ||| (n >>> 12), 128 ||| ((n >>> 6) &&& 63), 128 ||| (n &&& 63)]
  else
    [240 ||| (n >>> 18), 128 ||| ((n >>> 12) &&& 63),
     128 ||| ((n >>> 6) &&& 63), 128 ||| (n &&& 63)]

/-- UTF-8 bytes of a string. -/
def utf8Bytes (s : String) : List Nat := (s.data.map encodeChar).flatten

/-- The lowercase hex digest `hashlib.sha256(s.encode()).hexdigest()`. -/
def sha256hex (s : String) : String :=
  ⟨((sha256Words (utf8Bytes s)).map wordHex).flatten⟩

end SHA256

namespace ParentBrowser

/-- A block of the submitted ledger, with the fields
`verify_blockchain_integrity` and the analytics read
(`app.py` expects `index`, `previousHash`, `deviceId`, `appName`,
`keyword`, `timestamp` in milliseconds, `nonce`, `hash`). -/
structure Block where
  index : Nat
  previousHash : String
  deviceId : String
  appName : String
  keyword : String
  timestamp : Nat
  nonce : Nat
  hash : String
deriving DecidableEq, Repr

/-- The digest preimage of a block: `app.py` lines 94-97 build
`f"{index}:{previousHash}:{deviceId}:{appName}:{keyword}:{timestamp}:{nonce}"`
(via the intermediate `data` f-string) and hash it. -/
def blockPreimage (b : Block) : String :=
  toString b.index ++ ":" ++ b.previousHash ++ ":" ++ b.deviceId ++ ":"
    ++ b.appName ++ ":" ++ b.keyword ++ ":" ++ toString b.timestamp ++ ":"
    ++ toString b.nonce

/-- The difficulty test `current['hash'].startswith('0000')` (`app.py` line 103). -/
def startsWith0000 (s : String) : Bool :=
  s.data.take 4 == ['0', '0', '0', '0']

/-- The loop body of `verify_blockchain_integrity` for one consecutive
pair (`app.py` lines 85-104): previous-hash linkage, digest
recomputation, and the 4-leading-zero proof-of-work check, folded over
the rest of the chain. -/
def verifyLinked : Block → List Block → Bool
  | _, [] => true
  | prev, cur :: rest =>
      (cur.previousHash == prev.hash)
        && (SHA256.sha256hex (blockPreimage cur) == cur.hash)
        && startsWith0000 cur.hash
        && verifyLinked cur rest

/-- The function `verify_blockchain_integrity` (`app.py` lines 75-106): an empty list
verifies; otherwise the genesis block must carry `previousHash == '0'`
and every later block must pass linkage, digest, and difficulty checks. -/
def verify_blockchain_integrity (blocks : List Block) : Bool :=
  match blocks with
  | [] => true
  | b0 :: rest =>
      if b0.previousHash == "0" then verifyLinked b0 rest else false

/-- The chain invariants the specification calls a *valid ledger*: genesis
sentinel `previousHash = "0"`, hash linkage between consecutive blocks,
a correct SHA-256 digest stored in every block (the genesis included),
and the difficulty predicate on every stored hash. Stated from the
spec's words, to be compared against `verify_blockchain_integrity`. -/
def chainWellFormed (blocks : List Block) : Bool :=
  match blocks with
  | [] => true
  | b0 :: rest =>
      (b0.previousHash == "0")
        && (b0 :: rest).all
            (fun b => (SHA256.sha256hex (blockPreimage b) == b.hash)
              && startsWith0000 b.hash)
        && linkageOK b0 rest
where
  /-- Consecutive-pair linkage: each block stores the previous block's hash. -/
  linkageOK : Block → List Block → Bool
  | _, [] => true
  | prev, cur :: rest => (cur.previousHash == prev.hash) && linkageOK cur rest

/-- The characters Python's membership test
`c in '0123456789abcdefABCDEF'` accepts (`app.py` line 70). -/
def hexChars : List Char := "0123456789abcdefABCDEF".data

/-- Split a character list at `'-'` separators, as Python's
`device_key.split('-')`: the empty string yields one empty segment. -/
def splitDash : List Char → List (List Char)
  | [] => [[]]
  | c :: rest =>
      match splitDash rest with
      | seg :: segs => if c = '-' then [] :: seg :: segs else (c :: seg) :: segs
      | [] => [[c]]

/-- One segment's check (`app.py` line 70): exactly 8 characters, each a
hex digit in either case. -/
def segmentOK (seg : List Char) : Bool :=
  (seg.length == 8) && seg.all (fun c => hexChars.contains c)

/-- The 18-segment well-formedness test of `validate_device_key`
(`app.py` lines 63-73): split on `'-'`, demand exactly 18 segments,
each 8 hex characters. -/
def wellFormedKey (device_key : String) : Bool :=
  let segs := splitDash device_key.data
  (segs.length == 18) && segs.all segmentOK

/-- The function `validate_device_key` (`app.py` lines 54-73), parameterised by the
configured bypass key (`BYPASS_KEY = os.getenv('BYPASS_KEY', '1234')`,
line 52): the bypass key is accepted unconditionally, any other string
must be 18 hyphen-separated 8-hex-character segments. -/
def validate_device_key (bypassKey device_key : String) : Bool :=
  if device_key == bypassKey then true else wellFormedKey device_key

/-- The default of `os.getenv('BYPASS_KEY', '1234')` when no override
token is configured in the environment (`app.py` line 52). -/
def BYPASS_KEY : String := "1234"

end ParentBrowser

namespace ParentBrowser

/-- A concrete mined genesis block: its stored hash is the SHA-256 digest
of its preimage and clears the 4-leading-zero difficulty. -/
def gBlock : Block :=
  { index := 0, previousHash := "0", deviceId := "dev1", appName := "appA",
    keyword := "kw", timestamp := 1700000000000, nonce := 5575,
    hash := "00008b4c46886ea0007cdd657d2e1efc39c65a8d505eb6721158435772409302" }

/-- A concrete mined successor of `gBlock`, linked to it by `previousHash`. -/
def b1Block : Block :=
  { index := 1, previousHash := gBlock.hash, deviceId := "dev1",
    appName := "appB", keyword := "cats", timestamp := 1700000100000,
    nonce := 18885,
    hash := "00007eff67ba20fefd5a5dda08b16191c957d5a19d455bf401e49ccb041c4bcd" }

end ParentBrowser

namespace ParentBrowser

/-- The per-device record `sync_blockchain` writes to
`blockchain_data/<device_key>.json` (`app.py` lines 147-154). -/
structure DeviceRecord where
  device_key : String
  device_id : Option String
  blocks : List Block
  last_sync : String
  app_version : String
  integrity_verified : Bool
deriving DecidableEq, Repr

/-- The parsed `blockchain_data` object of the sync payload. -/
structure BlockchainData where
  device_id : Option String
  blocks : List Block
deriving DecidableEq, Repr

/-- The server's per-key storage: the `blockchain_data` directory keyed by
device key. -/
def Store : Type := String → Option DeviceRecord

/-- The salient content of a `sync_blockchain` HTTP response: an error
body with its status code, or the success body's count and timestamp. -/
inductive SyncResponse where
  | error (message : String) (status : Nat)
  | success (violations_count : Nat) (timestamp : String)
deriving DecidableEq, Repr

/-- The invalid-key error body (`app.py` line 137). -/
def invalidKeyMessage : String :=
  "Invalid blockchain key format. Key must have 18 segments separated by hyphens."

/-- The integrity-failure error body (`app.py` line 142). -/
def integrityMessage : String := "Blockchain integrity verification failed"

/-- The route `sync_blockchain` (`app.py` lines 113-167) on a well-formed payload:
key validation first, then chain verification, and only then the full
overwrite of the stored record. `now` is the `datetime.now().isoformat()`
reading, `app_version` the payload's value (the route substitutes
`'unknown'` when absent). -/
def sync_blockchain (bypassKey : String) (store : Store) (device_key : String)
    (blockchain_data : BlockchainData) (app_version : String) (now : String) :
    SyncResponse × Store :=
  if validate_device_key bypassKey device_key = false then
    (.error invalidKeyMessage 400, store)
  else if verify_blockchain_integrity blockchain_data.blocks = false then
    (.error integrityMessage 400, store)
  else
    let record : DeviceRecord :=
      { device_key := device_key
        device_id := blockchain_data.device_id
        blocks := blockchain_data.blocks
        last_sync := now
        app_version := app_version
        integrity_verified := true }
    (.success blockchain_data.blocks.length now,
      fun k => if k = device_key then some record else store k)

/-! ## The analytics aggregation (`analytics.py`) -/

/-- One `mostUsedApps` entry (`analytics.py` lines 629-637). -/
structure AppUsage where
  appName : String
  usageCount : Nat
  categoryType : String
  lastUsed : String
deriving DecidableEq, Repr

/-- One `searchedKeywords` entry (`analytics.py` lines 644-653). -/
structure KeywordEntry where
  keyword : String
  frequency : Nat
  sentiment : Int
  category : String
  timestamp : String
deriving DecidableEq, Repr

/-- One `blockedNSFWAttempts` entry (`analytics.py` lines 621-626). -/
structure BlockedAttempt where
  keyword : String
  appName : String
  timestamp : Nat
  blockHash : String
deriving DecidableEq, Repr

/-- One `dailyScreenTime` entry (`analytics.py` lines 670-674). Calendar
dates are day indices (the code's `'%Y-%m-%d'` strings sort the same way
the day indices order). -/
structure ScreenTimeEntry where
  date : Int
  minutes : Nat
  peakHours : List Nat
deriving DecidableEq, Repr

/-- The `screenTimeData` object (`analytics.py` lines 685-692). -/
structure ScreenTimeData where
  dailyScreenTime : List ScreenTimeEntry
  weeklyAverage : Nat
  lateNightSessions : Nat
  avgSleepTime : String
deriving DecidableEq, Repr

/-- The `metadata` fields the aggregation writes (`analytics.py`
lines 695-697). -/
structure IntelMetadata where
  lastSync : String
  totalViolations : Nat
  integrityVerified : Bool
deriving DecidableEq, Repr

/-- The `childProfile` fields the aggregation touches. -/
structure ChildProfile where
  deviceKey : String
  profileCreated : String
  lastUpdated : String
deriving DecidableEq, Repr

/-- The `behavioralData` object; `emotionalTone` stands for the payload
this function carries through unchanged. -/
structure BehavioralData where
  mostUsedApps : List AppUsage
  searchedKeywords : List KeywordEntry
  blockedNSFWAttempts : List BlockedAttempt
  screenTimeData : ScreenTimeData
  emotionalTone : String
deriving DecidableEq, Repr

/-- The intelligence record, restricted to the parts
`update_behavioral_data_from_blockchain` reads or writes, plus
carried-through fields. -/
structure Intelligence where
  childProfile : ChildProfile
  behavioralData : BehavioralData
  metadata : IntelMetadata
  conversationStarters : List String
deriving DecidableEq, Repr

/-- Modelled from the spec: `intelligence_template.json` (loaded when no
intelligence exists yet, `analytics.py` lines 588-596) is not under
`src/`; the spec describes the aggregation as filling every behavioural
field from the ledger, so the template is the empty intelligence record. -/
def intelligenceTemplate : Intelligence :=
  { childProfile := { deviceKey := "", profileCreated := "", lastUpdated := "" }
    behavioralData :=
      { mostUsedApps := []
        searchedKeywords := []
        blockedNSFWAttempts := []
        screenTimeData :=
          { dailyScreenTime := [], weeklyAverage := 0,
            lateNightSessions := 0, avgSleepTime := "22:00" }
        emotionalTone := "" }
    metadata := { lastSync := "", totalViolations := 0, integrityVerified := true }
    conversationStarters := [] }

/-- A `collections.Counter` bump (`counter[x] += 1`): increment the first
entry holding `x`, or append a fresh entry. The association list keeps
Python's dict insertion order, i.e. first-occurrence order. -/
def bumpCount {α : Type} [DecidableEq α] (l : List (α × Nat)) (x : α) :
    List (α × Nat) :=
  match l with
  | [] => [(x, 1)]
  | (y, n) :: rest =>
      if y = x then (y, n + 1) :: rest else (y, n) :: bumpCount rest x

/-- The counter built by bumping every element of `xs` in order. -/
def counterOf {α : Type} [DecidableEq α] (xs : List α) : List (α × Nat) :=
  xs.foldl bumpCount []

/-- Insert into a count-descending list, after every entry with at least
this count: the tie-breaking `heapq.nlargest` (hence
`Counter.most_common`) applies, earlier-seen entries staying first. -/
def insertByCount {α : Type} (p : α × Nat) :
    List (α × Nat) → List (α × Nat)
  | [] => [p]
  | q :: rest =>
      if p.2 ≤ q.2 then q :: insertByCount p rest else p :: q :: rest

/-- Sort counter entries by descending count, stably. -/
def sortByCountDesc {α : Type} (l : List (α × Nat)) : List (α × Nat) :=
  l.foldl (fun acc p => insertByCount p acc) []

/-- Python's `Counter.most_common(n)`: the `n` largest counts, descending, ties in
first-insertion order. -/
def mostCommon {α : Type} [DecidableEq α] (n : Nat) (xs : List α) :
    List (α × Nat) :=
  (sortByCountDesc (counterOf xs)).take n

/-- Insert into a date-ascending list, after every entry with a date not
above this one (Python's stable `sorted` over the distinct date keys). -/
def insertByDate (p : Int × Nat) : List (Int × Nat) → List (Int × Nat)
  | [] => [p]
  | q :: rest =>
      if q.1 ≤ p.1 then q :: insertByDate p rest else p :: q :: rest

/-- Sort per-date counts ascending by date. -/
def sortByDateAsc (l : List (Int × Nat)) : List (Int × Nat) :=
  l.foldl (fun acc p => insertByDate p acc) []

/-- The calendar dates of the blocks with a truthy timestamp
(`analytics.py` lines 659-664 skip `timestamp == 0`); `dateOf` abstracts
`datetime.fromtimestamp(ts / 1000).strftime('%Y-%m-%d')`. -/
def blockDates (dateOf : Nat → Int) (blocks : List Block) : List Int :=
  (blocks.filter (fun b => b.timestamp ≠ 0)).map (fun b => dateOf b.timestamp)

/-- One per-day entry from a (date, activity count) pair: two minutes of
estimated screen time per block, empty `peakHours` (`analytics.py`
lines 669-674). -/
def toScreenEntry (p : Int × Nat) : ScreenTimeEntry :=
  { date := p.1, minutes := 2 * p.2, peakHours := [] }

/-- The ascending per-day screen time entries (`analytics.py`
lines 658-674): group truthy-timestamp blocks by calendar date, two
minutes per block. -/
def screenTimeEntries (dateOf : Nat → Int) (blocks : List Block) :
    List ScreenTimeEntry :=
  (sortByDateAsc (counterOf (blockDates dateOf blocks))).map toScreenEntry

/-- The weekly average (`analytics.py` lines 676-682): floor of total
minutes over the day count, zero when no day has data. -/
def weeklyAverageOf (entries : List ScreenTimeEntry) : Nat :=
  if entries.isEmpty then 0
  else (entries.map (fun e => e.minutes)).sum / entries.length

/-- Python's `l[-n:]`: the last `n` elements. -/
def lastN {α : Type} (n : Nat) (l : List α) : List α :=
  l.drop (l.length - n)

/-- The aggregation `update_behavioral_data_from_blockchain` (`analytics.py`
lines 580-703). `dateOf` abstracts the local calendar date of a
millisecond timestamp; `prior` is the loaded intelligence (none when no
file exists yet); `integrity_verified` is the stored flag of the
blockchain data (defaulting to true); `now` is the
`datetime.now().isoformat()` reading stamped into the output. The
`keyword_list` of lines 603-619 only feeds the keyword counter, so the
embedding counts keywords directly. -/
def update_behavioral_data_from_blockchain (dateOf : Nat → Int)
    (prior : Option Intelligence) (device_key : String) (blocks : List Block)
    (integrity_verified : Bool) (now : String) : Intelligence :=
  let base : Intelligence :=
    match prior with
    | some intel => intel
    | none =>
        { intelligenceTemplate with
          childProfile :=
            { intelligenceTemplate.childProfile with
              deviceKey := device_key, profileCreated := now } }
  let mostUsedApps : List AppUsage :=
    (mostCommon 20 (blocks.map (fun b => b.appName))).map
      (fun p =>
        { appName := p.1, usageCount := p.2, categoryType := "browser",
          lastUsed := now })
  let searchedKeywords : List KeywordEntry :=
    (mostCommon 100 (blocks.map (fun b => b.keyword))).map
      (fun p =>
        { keyword := p.1, frequency := p.2, sentiment := 0,
          category := "neutral", timestamp := now })
  let blockedAttempts : List BlockedAttempt :=
    blocks.map
      (fun b =>
        { keyword := b.keyword, appName := b.appName,
          timestamp := b.timestamp, blockHash := b.hash })
  let entries := screenTimeEntries dateOf blocks
  { base with
    childProfile := { base.childProfile with lastUpdated := now }
    behavioralData :=
      { base.behavioralData with
        mostUsedApps := mostUsedApps
        searchedKeywords := searchedKeywords
        blockedNSFWAttempts := blockedAttempts
        screenTimeData :=
          { dailyScreenTime := lastN 30 entries
            weeklyAverage := weeklyAverageOf entries
            lateNightSessions := 0
            avgSleepTime := "22:00" } }
    metadata :=
      { lastSync := now, totalViolations := blocks.length,
        integrityVerified := integrity_verified } }

/-- Erase every field the aggregation stamps with the current clock
reading: used to state that the clock influences nothing else. -/
def stripClock (intel : Intelligence) : Intelligence :=
  { intel with
    childProfile :=
      { intel.childProfile with profileCreated := "", lastUpdated := "" }
    behavioralData :=
      { intel.behavioralData with
        mostUsedApps :=
          intel.behavioralData.mostUsedApps.map (fun a => { a with lastUsed := "" })
        searchedKeywords :=
          intel.behavioralData.searchedKeywords.map
            (fun k => { k with timestamp := "" }) }
    metadata := { intel.metadata with lastSync := "" } }

end ParentBrowser

namespace ParentBrowser

/-- The three per-block checks of the verification loop body, on one
consecutive pair. -/
def pairCheck (prev cur : Block) : Bool :=
  (cur.previousHash == prev.hash)
    && (SHA256.sha256hex (blockPreimage cur) == cur.hash)
    && startsWith0000 cur.hash

/-- The block preceding index `i` when `prev` sits in front of `l`. -/
def prevGet (prev : Block) : List Block → Nat → Block
  | _, 0 => prev
  | [], _ + 1 => prev
  | c :: rest, i + 1 => prevGet c rest i

/-- First-match lookup of a counter key (0 when absent). -/
def countVal {α : Type} [DecidableEq α] : List (α × Nat) → α → Nat
  | [], _ => 0
  | (y, n) :: rest, x => if y = x then n else countVal rest x

/-- The keys of a counter, in insertion order. -/
def keysOf {α : Type} (l : List (α × Nat)) : List α := l.map Prod.fst

/-- Total of all counter values. -/
def sumVals {α : Type} (l : List (α × Nat)) : Nat := (l.map Prod.snd).sum

/-- The index of the first occurrence of `x` in a list (its length when
absent): the position that "first-seen order" refers to. -/
def firstIdx {α : Type} [DecidableEq α] : List α → α → Nat
  | [], _ => 0
  | y :: rest, x => if y = x then 0 else firstIdx rest x + 1

/-- A ledger of 150 blocks with pairwise-distinct keywords `"0" … "149"`. -/
def kwBlocks (n : Nat) : List Block :=
  (List.range n).map (fun i =>
    { index := i, previousHash := "", deviceId := "", appName := "",
      keyword := toString i, timestamp := 0, nonce := 0, hash := "" })

/-- The UTC day index of a millisecond timestamp, standing in for the
source's local calendar date string (the date strings sort exactly as
the day indices do). -/
def msDay (ts : Nat) : Int := ((ts / 86400000 : Nat) : Int)

/-- Blocks on consecutive days, one per day (timestamps just past each
midnight). -/
def dayBlocks (n : Nat) : List Block :=
  (List.range n).map (fun i =>
    { index := i, previousHash := "", deviceId := "", appName := "",
      keyword := "k", timestamp := i * 86400000 + 1, nonce := 0, hash := "" })

end ParentBrowser

/-- FIPS 180-4 test vector: digest of `"abc"`. -/
example :
    SHA256.sha256hex "abc"
      = "ba7816bf8f01cfea414140de5dae2223b00361a396177a9cb410ff61f20015ad" := by
  decide

/-- FIPS 180-4 test vector: digest of the empty string. -/
example :
    SHA256.sha256hex ""
      = "e3b0c44298fc1c149afbf4c8996fb92427ae41e4649b934ca495991b7852b855" := by
  decide

/-- Smoke test: a well-formed 18-segment key is accepted. -/
example :
    ParentBrowser.validate_device_key "x"
      "00000000-11111111-22222222-33333333-44444444-55555555-66666666-77777777-88888888-99999999-aaaaaaaa-bbbbbbbb-cccccccc-dddddddd-eeeeeeee-ffffffff-01234567-89abcdef" = true := by
  decide

/-- Smoke test: shrinking one segment to 7 characters rejects the key. -/
example :
    ParentBrowser.validate_device_key "x"
      "0000000-11111111-22222222-33333333-44444444-55555555-66666666-77777777-88888888-99999999-aaaaaaaa-bbbbbbbb-cccccccc-dddddddd-eeeeeeee-ffffffff-01234567-89abcdef" = false := by
  decide

example : ParentBrowser.chainWellFormed
    [ParentBrowser.gBlock, ParentBrowser.b1Block] = true := by decide

example : ParentBrowser.verify_blockchain_integrity
    [ParentBrowser.gBlock, ParentBrowser.b1Block] = true := by decide

namespace ParentBrowser

theorem verifyLinked_cons (prev c : Block) (rest : List Block) :
    verifyLinked prev (c :: rest) = (pairCheck prev c && verifyLinked c rest) :=
  rfl

theorem prevGet_succ (l : List Block) (prev : Block) (j : Nat)
    (h : j < l.length) : prevGet prev l (j + 1) = l.get ⟨j, h⟩ := by
  induction l generalizing prev j with
  | nil => simp at h
  | cons c rest ih =>
    cases j with
    | zero => simp [prevGet]
    | succ k =>
      have hk : k < rest.length := by simpa using h
      simpa [prevGet] using ih c k hk

/-- Lemma: `prevGet` only looks at entries before the index, so setting the
index leaves it unchanged. -/
theorem prevGet_set (l : List Block) (prev b' : Block) (i : Nat) :
    prevGet prev (l.set i b') i = prevGet prev l i := by
  induction l generalizing prev i with
  | nil => cases i <;> rfl
  | cons c rest ih =>
    cases i with
    | zero => rfl
    | succ j => simpa [List.set, prevGet] using ih c j

/-- A failing pair check anywhere past the genesis forces the whole
verification loop to false. -/
theorem verifyLinked_false_at (l : List Block) (prev : Block) (i : Nat)
    (b' : Block) (hi : i < l.length)
    (hbad : pairCheck (prevGet prev l i) b' = false) :
    verifyLinked prev (l.set i b') = false := by
  induction l generalizing prev i with
  | nil => simp at hi
  | cons c rest ih =>
    cases i with
    | zero =>
      simp only [prevGet] at hbad
      simp [List.set, verifyLinked_cons, hbad]
    | succ j =>
      have hj : j < rest.length := by simpa using hi
      have hr : verifyLinked c (rest.set j b') = false :=
        ih c j hj (by simpa [prevGet] using hbad)
      simp [List.set, verifyLinked_cons, hr]

/-- A passing verification loop passes every pair check. -/
theorem verifyLinked_all (l : List Block) (prev : Block)
    (h : verifyLinked prev l = true) (j : Nat) (hj : j < l.length) :
    pairCheck (prevGet prev l j) (l.get ⟨j, hj⟩) = true := by
  induction l generalizing prev j with
  | nil => simp at hj
  | cons c rest ih =>
    rw [verifyLinked_cons, Bool.and_eq_true] at h
    cases j with
    | zero => simpa [prevGet] using h.1
    | succ k =>
      have hk : k < rest.length := by simpa using hj
      simpa [prevGet] using ih c h.2 k hk

/-- Per-block digest and difficulty checks plus linkage give a passing
verification loop. -/
theorem verifyLinked_of_parts (l : List Block) (prev : Block)
    (hall : ∀ b ∈ l,
      ((SHA256.sha256hex (blockPreimage b) == b.hash) && startsWith0000 b.hash) = true)
    (hlink : chainWellFormed.linkageOK prev l = true) :
    verifyLinked prev l = true := by
  induction l generalizing prev with
  | nil => rfl
  | cons c rest ih =>
    rw [chainWellFormed.linkageOK, Bool.and_eq_true] at hlink
    have hc := hall c (List.mem_cons_self c rest)
    rw [Bool.and_eq_true] at hc
    rw [verifyLinked_cons, Bool.and_eq_true]
    refine ⟨?_, ih c (fun b hb => hall b (List.mem_cons_of_mem c hb)) hlink.2⟩
    simp [pairCheck, hlink.1, hc.1, hc.2]

/-- Linkage gives each block's stored `previousHash` as the preceding
block's hash. -/
theorem linkageOK_get (l : List Block) (prev : Block)
    (h : chainWellFormed.linkageOK prev l = true) (j : Nat) (hj : j < l.length) :
    (l.get ⟨j, hj⟩).previousHash = (prevGet prev l j).hash := by
  induction l generalizing prev j with
  | nil => simp at hj
  | cons c rest ih =>
    rw [chainWellFormed.linkageOK, Bool.and_eq_true] at h
    cases j with
    | zero => simpa [prevGet] using h.1
    | succ k =>
      have hk : k < rest.length := by simpa using hj
      simpa [prevGet] using ih c h.2 k hk

end ParentBrowser

namespace ParentBrowser

/-- Unpack the validity predicate of a nonempty ledger. -/
theorem chainWellFormed_parts (b0 : Block) (rest : List Block)
    (h : chainWellFormed (b0 :: rest) = true) :
    b0.previousHash = "0" ∧
    (∀ b ∈ b0 :: rest,
      SHA256.sha256hex (blockPreimage b) = b.hash ∧ startsWith0000 b.hash = true) ∧
    chainWellFormed.linkageOK b0 rest = true := by
  rw [chainWellFormed] at h
  simp only [Bool.and_eq_true, List.all_eq_true, beq_iff_eq] at h
  exact ⟨h.1.1, fun b hb => (h.1.2 b hb).imp id id, h.2⟩

/-- A valid ledger passes `verify_blockchain_integrity` (the server's
checks are a subset of the chain invariants). -/
theorem verify_of_valid (L : List Block) (h : chainWellFormed L = true) :
    verify_blockchain_integrity L = true := by
  cases L with
  | nil => rfl
  | cons b0 rest =>
    obtain ⟨hg, hall, hlink⟩ := chainWellFormed_parts b0 rest h
    have hrun : verifyLinked b0 rest = true :=
      verifyLinked_of_parts rest b0
        (fun b hb => by
          obtain ⟨hd, hf⟩ := hall b (List.mem_cons_of_mem b0 hb)
          simp [hd, hf])
        hlink
    simp [verify_blockchain_integrity, hg, hrun]

/-- In a valid ledger, every stored hash is the recomputed digest. -/
theorem chainWellFormed_digest (L : List Block) (h : chainWellFormed L = true)
    (i : Nat) (hi : i < L.length) :
    SHA256.sha256hex (blockPreimage (L.get ⟨i, hi⟩)) = (L.get ⟨i, hi⟩).hash := by
  cases L with
  | nil => simp at hi
  | cons b0 rest =>
    exact ((chainWellFormed_parts b0 rest h).2.1 _ (List.get_mem _ _ _)).1

/-- In a valid ledger, each non-genesis block stores the hash of the
block before it. -/
theorem chainWellFormed_link (b0 : Block) (rest : List Block)
    (h : chainWellFormed (b0 :: rest) = true) (j : Nat) (hj : j < rest.length) :
    (rest.get ⟨j, hj⟩).previousHash = (prevGet b0 rest j).hash :=
  linkageOK_get rest b0 (chainWellFormed_parts b0 rest h).2.2 j hj

end ParentBrowser

namespace ParentBrowser

theorem verify_cons_eq (b0 : Block) (rest : List Block) :
    verify_blockchain_integrity (b0 :: rest)
      = if b0.previousHash == "0" then verifyLinked b0 rest else false := rfl

/-- A failing digest comparison alone sinks the pair check. -/
theorem pairCheck_eq_false_of_digest (p c : Block)
    (h : SHA256.sha256hex (blockPreimage c) ≠ c.hash) : pairCheck p c = false := by
  have hb : (SHA256.sha256hex (blockPreimage c) == c.hash) = false :=
    beq_eq_false_iff_ne.mpr h
  simp [pairCheck, hb]

/-- A failing linkage comparison alone sinks the pair check. -/
theorem pairCheck_eq_false_of_link (p c : Block)
    (h : c.previousHash ≠ p.hash) : pairCheck p c = false := by
  have hb : (c.previousHash == p.hash) = false := beq_eq_false_iff_ne.mpr h
  simp [pairCheck, hb]

end ParentBrowser

open ParentBrowser in
/-- C1 (amended): every ledger satisfying all chain invariants passes
`verify_blockchain_integrity`; tampering with a block at index ≥ 1 is
detected — replacing its stored hash or its `previousHash` with any
different value forces `verify_blockchain_integrity` to false, and
replacing the whole block forces false whenever the tampered block's
recomputed digest no longer equals its stored hash (i.e. absent a
SHA-256 collision). Genesis content fields enjoy no such detection (see
the counterexample). -/
theorem C1_valid_verifies_and_nongenesis_tamper_detected :
    (∀ L : List Block, chainWellFormed L = true →
        verify_blockchain_integrity L = true) ∧
    (∀ (L : List Block) (i : Nat) (h' : String) (hi : i < L.length),
        chainWellFormed L = true → 1 ≤ i → h' ≠ (L.get ⟨i, hi⟩).hash →
        verify_blockchain_integrity
          (L.set i { L.get ⟨i, hi⟩ with hash := h' }) = false) ∧
    (∀ (L : List Block) (i : Nat) (p' : String) (hi : i < L.length),
        chainWellFormed L = true → 1 ≤ i → p' ≠ (L.get ⟨i, hi⟩).previousHash →
        verify_blockchain_integrity
          (L.set i { L.get ⟨i, hi⟩ with previousHash := p' }) = false) ∧
    (∀ (L : List Block) (i : Nat) (b' : Block), i < L.length → 1 ≤ i →
        SHA256.sha256hex (blockPreimage b') ≠ b'.hash →
        verify_blockchain_integrity (L.set i b') = false) := by
  refine ⟨verify_of_valid, ?_, ?_, ?_⟩
  · intro L i h' hi hvalid h1 hneq
    cases L with
    | nil => simp at hi
    | cons b0 rest =>
      cases i with
      | zero => simp at h1
      | succ j =>
        have hj : j < rest.length := by simpa using hi
        obtain ⟨orig, horig⟩ : ∃ o, (b0 :: rest).get ⟨j + 1, hi⟩ = o := ⟨_, rfl⟩
        rw [horig] at hneq ⊢
        have hdig : SHA256.sha256hex (blockPreimage orig) = orig.hash := by
          rw [← horig]; exact chainWellFormed_digest _ hvalid (j + 1) hi
        have hd : SHA256.sha256hex (blockPreimage ({ orig with hash := h' } : Block))
            ≠ ({ orig with hash := h' } : Block).hash := by
          have e1 : blockPreimage ({ orig with hash := h' } : Block)
              = blockPreimage orig := rfl
          have e2 : ({ orig with hash := h' } : Block).hash = h' := rfl
          rw [e1, e2, hdig]
          exact fun hc => hneq hc.symm
        have hbad := pairCheck_eq_false_of_digest (prevGet b0 rest j) _ hd
        have hrun := verifyLinked_false_at rest b0 j _ hj hbad
        show verify_blockchain_integrity
          (b0 :: rest.set j { orig with hash := h' }) = false
        rw [verify_cons_eq, hrun]
        simp
  · intro L i p' hi hvalid h1 hneq
    cases L with
    | nil => simp at hi
    | cons b0 rest =>
      cases i with
      | zero => simp at h1
      | succ j =>
        have hj : j < rest.length := by simpa using hi
        obtain ⟨orig, horig⟩ : ∃ o, (b0 :: rest).get ⟨j + 1, hi⟩ = o := ⟨_, rfl⟩
        rw [horig] at hneq ⊢
        have hlink : orig.previousHash = (prevGet b0 rest j).hash := by
          rw [← horig]; exact chainWellFormed_link b0 rest hvalid j hj
        have hl : ({ orig with previousHash := p' } : Block).previousHash
            ≠ (prevGet b0 rest j).hash := by
          have e : ({ orig with previousHash := p' } : Block).previousHash = p' := rfl
          rw [e, ← hlink]
          exact fun hc => hneq hc
        have hbad := pairCheck_eq_false_of_link (prevGet b0 rest j) _ hl
        have hrun := verifyLinked_false_at rest b0 j _ hj hbad
        show verify_blockchain_integrity
          (b0 :: rest.set j { orig with previousHash := p' }) = false
        rw [verify_cons_eq, hrun]
        simp
  · intro L i b' hi h1 hneq
    cases L with
    | nil => simp at hi
    | cons b0 rest =>
      cases i with
      | zero => simp at h1
      | succ j =>
        have hj : j < rest.length := by simpa using hi
        have hbad := pairCheck_eq_false_of_digest (prevGet b0 rest j) b' hneq
        have hrun := verifyLinked_false_at rest b0 j _ hj hbad
        show verify_blockchain_integrity (b0 :: rest.set j b') = false
        rw [verify_cons_eq, hrun]
        simp

open ParentBrowser in
/-- C1 counterexample: a fully valid single-block ledger whose genesis
keyword is changed by one byte (`"kw"` to `"kx"`) still verifies, even
though the change breaks the stored digest — so flipping a byte in a
genesis content field does not make `verify_blockchain_integrity`
false, contrary to the claim. -/
theorem C1_counterexample_genesis_tamper_undetected :
    chainWellFormed [gBlock] = true ∧
    ({ gBlock with keyword := "kx" } : Block) ≠ gBlock ∧
    SHA256.sha256hex (blockPreimage { gBlock with keyword := "kx" })
      ≠ ({ gBlock with keyword := "kx" } : Block).hash ∧
    verify_blockchain_integrity [{ gBlock with keyword := "kx" }] = true := by
  refine ⟨by decide, by decide, by decide, by decide⟩

open ParentBrowser in
/-- C1 witness: the amended theorem applied to a concrete mined
two-block ledger and three concrete tamperings of its second block. -/
theorem C1_witness_concrete_two_block_chain :
    verify_blockchain_integrity [gBlock, b1Block] = true ∧
    verify_blockchain_integrity
      [gBlock, { b1Block with
        hash := "00007eff67ba20fefd5a5dda08b16191c957d5a19d455bf401e49ccb041c4bce" }]
      = false ∧
    verify_blockchain_integrity
      [gBlock, { b1Block with previousHash := "1" }] = false ∧
    verify_blockchain_integrity
      [gBlock, { b1Block with keyword := "catz" }] = false := by
  obtain ⟨h1, h2, h3, h4⟩ := C1_valid_verifies_and_nongenesis_tamper_detected
  refine ⟨h1 [gBlock, b1Block] (by decide), ?_, ?_, ?_⟩
  · exact h2 [gBlock, b1Block] 1
      "00007eff67ba20fefd5a5dda08b16191c957d5a19d455bf401e49ccb041c4bce"
      (by decide) (by decide) (by decide) (by decide)
  · exact h3 [gBlock, b1Block] 1 "1" (by decide) (by decide) (by decide) (by decide)
  · exact h4 [gBlock, b1Block] 1 { b1Block with keyword := "catz" }
      (by decide) (by decide) (by decide)

open ParentBrowser in
/-- C2 (amended): whenever `verify_blockchain_integrity` accepts a
ledger, every block at index ≥ 1 stores exactly the SHA-256 hex digest
of the fixed-order, `':'`-separated concatenation of its fields and that
digest starts with 4 `'0'` characters; the genesis block at index 0 is
exempt from both checks (see the counterexample). -/
theorem C2_nongenesis_digest_and_difficulty_checked :
    ∀ L : List Block, verify_blockchain_integrity L = true →
      ∀ (i : Nat) (hi : i < L.length), 1 ≤ i →
        SHA256.sha256hex (blockPreimage (L.get ⟨i, hi⟩)) = (L.get ⟨i, hi⟩).hash ∧
        startsWith0000 (L.get ⟨i, hi⟩).hash = true := by
  intro L hv i hi h1
  cases L with
  | nil => simp at hi
  | cons b0 rest =>
    cases i with
    | zero => simp at h1
    | succ j =>
      have hj : j < rest.length := by simpa using hi
      rw [verify_cons_eq] at hv
      cases hgen : (b0.previousHash == "0") with
      | false => rw [hgen] at hv; simp at hv
      | true =>
        rw [hgen] at hv
        simp only [if_true] at hv
        have hp := verifyLinked_all rest b0 hv j hj
        simp only [pairCheck, Bool.and_eq_true, beq_iff_eq] at hp
        exact ⟨hp.1.2, hp.2⟩

open ParentBrowser in
/-- C2 counterexample: a single-block ledger whose genesis stores the
hash `"deadbeef"` — not the recomputed digest, and without 4 leading
zeros — is still accepted, so the digest and difficulty checks are not
applied to the genesis block as the claim states. -/
theorem C2_counterexample_genesis_unchecked :
    verify_blockchain_integrity [{ gBlock with hash := "deadbeef" }] = true ∧
    SHA256.sha256hex (blockPreimage { gBlock with hash := "deadbeef" })
      ≠ ({ gBlock with hash := "deadbeef" } : Block).hash ∧
    startsWith0000 ({ gBlock with hash := "deadbeef" } : Block).hash = false := by
  refine ⟨by decide, by decide, by decide⟩

open ParentBrowser in
/-- C2 witness: the amended theorem applied to the mined two-block
ledger at index 1. -/
theorem C2_witness_mined_chain_block_one :
    SHA256.sha256hex (blockPreimage b1Block) = b1Block.hash ∧
    startsWith0000 b1Block.hash = true :=
  C2_nongenesis_digest_and_difficulty_checked [gBlock, b1Block] (by decide) 1
    (by decide) (by decide)

open ParentBrowser in
/-- C9 (confirmed): a single-block ledger whose block carries
`previousHash = "0"` always verifies — the digest and difficulty checks
run only from index 1 on, so the stored hash and nonce are irrelevant. -/
theorem C9_single_genesis_always_verifies :
    ∀ b : Block, b.previousHash = "0" →
      verify_blockchain_integrity [b] = true := by
  intro b hb
  rw [verify_cons_eq]
  simp [hb, verifyLinked]

open ParentBrowser in
/-- C9 witness: a garbage single-block ledger — hash not even hex, no
leading zeros, digest wrong — still verifies. -/
theorem C9_witness_garbage_genesis :
    startsWith0000 (Block.mk 0 "0" "d" "a" "k" 5 7 "not-a-digest").hash = false ∧
    verify_blockchain_integrity [Block.mk 0 "0" "d" "a" "k" 5 7 "not-a-digest"]
      = true :=
  ⟨by decide, C9_single_genesis_always_verifies
    (Block.mk 0 "0" "d" "a" "k" 5 7 "not-a-digest") (by decide)⟩

open ParentBrowser in
/-- C5 (confirmed): `validate_device_key` accepts the configured bypass
token unconditionally, and any other string exactly when it splits on
`'-'` into 18 segments of 8 hex characters; concretely, a well-formed
18×8-hex key is accepted and the same key with one 7-character segment
is rejected. -/
theorem C5_validate_key_characterization :
    (∀ bypassKey k : String,
        validate_device_key bypassKey k = true ↔
          (k = bypassKey ∨ wellFormedKey k = true)) ∧
    validate_device_key "deadbeef"
      "00000000-11111111-22222222-33333333-44444444-55555555-66666666-77777777-88888888-99999999-aaaaaaaa-bbbbbbbb-cccccccc-dddddddd-eeeeeeee-ffffffff-01234567-89abcdef"
      = true ∧
    validate_device_key "deadbeef"
      "0000000-11111111-22222222-33333333-44444444-55555555-66666666-77777777-88888888-99999999-aaaaaaaa-bbbbbbbb-cccccccc-dddddddd-eeeeeeee-ffffffff-01234567-89abcdef"
      = false := by
  refine ⟨?_, by decide, by decide⟩
  intro bk k
  cases hb : (k == bk) with
  | true => simp [validate_device_key, hb, eq_of_beq hb]
  | false => simp [validate_device_key, hb, ne_of_beq_false hb]

open ParentBrowser in
/-- C6 counterexample: a key failing on segment count and a key failing
on segment format produce the identical bare result `false` — there is
no `WRONG_SEGMENT_COUNT` / `BAD_SEGMENT_FORMAT` distinction anywhere in
the validator's output, contrary to the claim. -/
theorem C6_counterexample_no_result_codes :
    (splitDash "abc".data).length ≠ 18 ∧
    (splitDash
      "0000000-11111111-22222222-33333333-44444444-55555555-66666666-77777777-88888888-99999999-aaaaaaaa-bbbbbbbb-cccccccc-dddddddd-eeeeeeee-ffffffff-01234567-89abcdef".data).length
      = 18 ∧
    (splitDash
      "0000000-11111111-22222222-33333333-44444444-55555555-66666666-77777777-88888888-99999999-aaaaaaaa-bbbbbbbb-cccccccc-dddddddd-eeeeeeee-ffffffff-01234567-89abcdef".data).all
      segmentOK = false ∧
    validate_device_key "zz" "abc" = false ∧
    validate_device_key "zz"
      "0000000-11111111-22222222-33333333-44444444-55555555-66666666-77777777-88888888-99999999-aaaaaaaa-bbbbbbbb-cccccccc-dddddddd-eeeeeeee-ffffffff-01234567-89abcdef"
      = false := by
  refine ⟨by decide, by decide, by decide, by decide, by decide⟩

open ParentBrowser in
/-- C6 (amended): validation failure is reported only as the bare
boolean `false` — every non-bypass, ill-formed key collapses to the same
value, with no result code distinguishing a wrong segment count from a
malformed segment, and the (total) validator raises nothing. -/
theorem C6_failures_collapse_to_bare_false :
    ∀ bypassKey k : String, k ≠ bypassKey → wellFormedKey k = false →
      validate_device_key bypassKey k = false := by
  intro bk k hne hwf
  have hb : (k == bk) = false := beq_eq_false_iff_ne.mpr hne
  simp [validate_device_key, hb, hwf]

open ParentBrowser in
/-- C6 witness: the amended theorem applied to a key with the wrong
segment count. -/
theorem C6_witness_wrong_count_returns_false :
    validate_device_key "zz" "abc-def" = false :=
  C6_failures_collapse_to_bare_false "zz" "abc-def" (by decide) (by decide)

open ParentBrowser in
/-- C10 (confirmed): with no `BYPASS_KEY` configured in the environment
the override token defaults to `"1234"`, so `validate_device_key`
accepts `"1234"` although it has none of the 18-segment hex shape. -/
theorem C10_default_bypass_key_accepted :
    BYPASS_KEY = "1234" ∧
    validate_device_key BYPASS_KEY "1234" = true ∧
    wellFormedKey "1234" = false := by
  refine ⟨rfl, by decide, by decide⟩

open ParentBrowser in
/-- C3 (confirmed): `sync_blockchain` short-circuits — an invalid key
yields the invalid-key error whatever the ledger, with the store
untouched; a valid key with a failing ledger yields the integrity error,
store untouched; only when both checks pass is the record fully
overwritten (with `integrity_verified := true`) and a summary with the
block count and timestamp returned, other keys unchanged. -/
theorem C3_sync_short_circuits_and_is_wholesale :
    (∀ (bk : String) (store : Store) (key : String) (bd : BlockchainData)
        (av now : String),
        validate_device_key bk key = false →
        sync_blockchain bk store key bd av now
          = (.error invalidKeyMessage 400, store)) ∧
    (∀ (bk : String) (store : Store) (key : String) (bd : BlockchainData)
        (av now : String),
        validate_device_key bk key = true →
        verify_blockchain_integrity bd.blocks = false →
        sync_blockchain bk store key bd av now
          = (.error integrityMessage 400, store)) ∧
    (∀ (bk : String) (store : Store) (key : String) (bd : BlockchainData)
        (av now : String),
        validate_device_key bk key = true →
        verify_blockchain_integrity bd.blocks = true →
        (sync_blockchain bk store key bd av now).1
            = .success bd.blocks.length now ∧
        (sync_blockchain bk store key bd av now).2 key = some
          { device_key := key, device_id := bd.device_id, blocks := bd.blocks,
            last_sync := now, app_version := av, integrity_verified := true } ∧
        (∀ k, k ≠ key →
          (sync_blockchain bk store key bd av now).2 k = store k)) := by
  refine ⟨?_, ?_, ?_⟩
  · intro bk store key bd av now hv
    simp [sync_blockchain, hv]
  · intro bk store key bd av now hv hb
    simp [sync_blockchain, hv, hb]
  · intro bk store key bd av now hv hb
    refine ⟨by simp [sync_blockchain, hv, hb], by simp [sync_blockchain, hv, hb], ?_⟩
    intro k hk
    simp [sync_blockchain, hv, hb, hk]

open ParentBrowser in
/-- C3 witness: the three branches of the theorem on concrete inputs —
a malformed key, a broken ledger under the default bypass key, and a
successful sync of the mined two-block ledger. -/
theorem C3_witness_concrete_syncs :
    sync_blockchain "1234" (fun _ => none) "bad key"
        ⟨some "dev1", [gBlock]⟩ "1.0" "t0"
      = (.error invalidKeyMessage 400, fun _ => none) ∧
    sync_blockchain "1234" (fun _ => none) "1234"
        ⟨some "dev1", [{ gBlock with previousHash := "1" }]⟩ "1.0" "t0"
      = (.error integrityMessage 400, fun _ => none) ∧
    (sync_blockchain "1234" (fun _ => none) "1234"
        ⟨some "dev1", [gBlock, b1Block]⟩ "1.0" "t0").1
      = .success 2 "t0" ∧
    (sync_blockchain "1234" (fun _ => none) "1234"
        ⟨some "dev1", [gBlock, b1Block]⟩ "1.0" "t0").2 "1234"
      = some
        { device_key := "1234", device_id := some "dev1",
          blocks := [gBlock, b1Block], last_sync := "t0",
          app_version := "1.0", integrity_verified := true } ∧
    (sync_blockchain "1234" (fun _ => none) "1234"
        ⟨some "dev1", [gBlock, b1Block]⟩ "1.0" "t0").2 "other" = none := by
  obtain ⟨h1, h2, h3⟩ := C3_sync_short_circuits_and_is_wholesale
  have hs := h3 "1234" (fun _ => none) "1234" ⟨some "dev1", [gBlock, b1Block]⟩
    "1.0" "t0" (by decide) (by decide)
  exact ⟨h1 _ _ _ _ _ _ (by decide), h2 _ _ _ _ _ _ (by decide) (by decide),
    hs.1, hs.2.1, hs.2.2 "other" (by decide)⟩

namespace ParentBrowser

theorem countVal_bumpCount {α : Type} [DecidableEq α]
    (l : List (α × Nat)) (x y : α) :
    countVal (bumpCount l x) y
      = if y = x then countVal l y + 1 else countVal l y := by
  induction l with
  | nil =>
    by_cases h : y = x
    · subst h; simp [bumpCount, countVal]
    · simp [bumpCount, countVal, h, Ne.symm h]
  | cons q rest ih =>
    obtain ⟨z, n⟩ := q
    by_cases hz : z = x
    · subst hz
      by_cases hy : y = z
      · subst hy; simp [bumpCount, countVal]
      · simp [bumpCount, countVal, hy, Ne.symm hy]
    · by_cases hy : z = y
      · subst hy
        simp [bumpCount, countVal, hz]
      · simp [bumpCount, countVal, hz, hy, ih]

theorem countVal_foldl {α : Type} [DecidableEq α]
    (xs : List α) (acc : List (α × Nat)) (y : α) :
    countVal (List.foldl bumpCount acc xs) y = countVal acc y + xs.count y := by
  induction xs generalizing acc with
  | nil => simp
  | cons a xs ih =>
    rw [List.foldl_cons, ih, countVal_bumpCount]
    by_cases h : y = a
    · subst h
      simp [List.count_cons]
      omega
    · simp [List.count_cons, h, Ne.symm h]

/-- The counter of a list holds exactly the list's element counts. -/
theorem countVal_counterOf {α : Type} [DecidableEq α] (xs : List α) (y : α) :
    countVal (counterOf xs) y = xs.count y := by
  simpa [counterOf, countVal] using countVal_foldl xs [] y

theorem keysOf_bumpCount {α : Type} [DecidableEq α] (l : List (α × Nat)) (x : α) :
    keysOf (bumpCount l x)
      = if x ∈ keysOf l then keysOf l else keysOf l ++ [x] := by
  induction l with
  | nil => simp [bumpCount, keysOf]
  | cons q rest ih =>
    obtain ⟨z, n⟩ := q
    by_cases hz : z = x
    · subst hz; simp [bumpCount, keysOf]
    · have hxz : ¬ x = z := fun hc => hz hc.symm
      simp only [bumpCount, hz, if_false, keysOf, List.map_cons] at ih ⊢
      rw [ih]
      by_cases hm : x ∈ List.map Prod.fst rest
      · simp [hm, hxz]
      · simp [hm, hxz]

theorem mem_keysOf_foldl {α : Type} [DecidableEq α]
    (xs : List α) (acc : List (α × Nat)) (y : α) :
    y ∈ keysOf (List.foldl bumpCount acc xs) ↔ y ∈ keysOf acc ∨ y ∈ xs := by
  induction xs generalizing acc with
  | nil => simp
  | cons a xs ih =>
    rw [List.foldl_cons, ih, keysOf_bumpCount]
    by_cases hm : a ∈ keysOf acc
    · simp only [hm, if_true, List.mem_cons]
      constructor
      · rintro (h | h)
        · exact Or.inl h
        · exact Or.inr (Or.inr h)
      · rintro (h | rfl | h)
        · exact Or.inl h
        · exact Or.inl hm
        · exact Or.inr h
    · simp only [hm, if_false, List.mem_append, List.mem_singleton, List.mem_cons]
      tauto

/-- A key occurs in the counter exactly when it occurs in the list. -/
theorem mem_keysOf_counterOf {α : Type} [DecidableEq α] (xs : List α) (y : α) :
    y ∈ keysOf (counterOf xs) ↔ y ∈ xs := by
  simpa [counterOf, keysOf] using mem_keysOf_foldl xs [] y

theorem nodup_keysOf_bumpCount {α : Type} [DecidableEq α]
    (l : List (α × Nat)) (x : α) (h : (keysOf l).Nodup) :
    (keysOf (bumpCount l x)).Nodup := by
  rw [keysOf_bumpCount]
  by_cases hm : x ∈ keysOf l
  · simpa [hm] using h
  · rw [if_neg hm]
    refine h.append (List.nodup_singleton x) ?_
    intro a ha hb
    rw [List.mem_singleton] at hb
    subst hb
    exact hm ha

/-- Counter keys are pairwise distinct. -/
theorem nodup_keysOf_counterOf {α : Type} [DecidableEq α] (xs : List α) :
    (keysOf (counterOf xs)).Nodup := by
  have main : ∀ acc : List (α × Nat), (keysOf acc).Nodup →
      (keysOf (List.foldl bumpCount acc xs)).Nodup := by
    induction xs with
    | nil => intro acc h; simpa using h
    | cons a xs ih =>
      intro acc h
      exact ih (bumpCount acc a) (nodup_keysOf_bumpCount acc a h)
  simpa [counterOf] using main [] (by simp [keysOf])

/-- With pairwise-distinct keys, each entry's value is its lookup. -/
theorem countVal_of_mem {α : Type} [DecidableEq α] (l : List (α × Nat))
    (h : (keysOf l).Nodup) (p : α × Nat) (hp : p ∈ l) :
    countVal l p.1 = p.2 := by
  induction l with
  | nil => simp at hp
  | cons q rest ih =>
    obtain ⟨z, n⟩ := q
    simp only [keysOf, List.map_cons, List.nodup_cons] at h
    rcases List.mem_cons.mp hp with rfl | hp
    · simp [countVal]
    · have hz : z ≠ p.1 := by
        intro hc
        exact h.1 (hc ▸ List.mem_map_of_mem Prod.fst hp)
      simpa [countVal, hz] using ih h.2 hp

end ParentBrowser

namespace ParentBrowser

theorem insertByCount_perm {α : Type} (p : α × Nat) (l : List (α × Nat)) :
    (insertByCount p l).Perm (p :: l) := by
  induction l with
  | nil => simp [insertByCount]
  | cons q rest ih =>
    by_cases h : p.2 ≤ q.2
    · rw [insertByCount, if_pos h]
      exact (ih.cons q).trans (List.Perm.swap p q rest)
    · rw [insertByCount, if_neg h]

theorem sortByCountDesc_perm {α : Type} (l : List (α × Nat)) :
    (sortByCountDesc l).Perm l := by
  have main : ∀ (l acc : List (α × Nat)),
      (List.foldl (fun acc p => insertByCount p acc) acc l).Perm (acc ++ l) := by
    intro l
    induction l with
    | nil => simp
    | cons a l ih =>
      intro acc
      rw [List.foldl_cons]
      refine (ih (insertByCount a acc)).trans ?_
      refine (((insertByCount_perm a acc).append_right l).trans ?_)
      exact List.perm_middle.symm
  simpa [sortByCountDesc] using main l []

theorem mem_insertByCount {α : Type} (p x : α × Nat) (l : List (α × Nat)) :
    x ∈ insertByCount p l ↔ x = p ∨ x ∈ l := by
  rw [(insertByCount_perm p l).mem_iff, List.mem_cons]

theorem pairwise_insertByCount {α : Type} (p : α × Nat) (l : List (α × Nat))
    (hl : l.Pairwise (fun a b => b.2 ≤ a.2)) :
    (insertByCount p l).Pairwise (fun a b => b.2 ≤ a.2) := by
  induction l with
  | nil => simp [insertByCount]
  | cons q rest ih =>
    rw [List.pairwise_cons] at hl
    by_cases h : p.2 ≤ q.2
    · rw [insertByCount, if_pos h]
      rw [List.pairwise_cons]
      refine ⟨?_, ih hl.2⟩
      intro x hx
      rcases (mem_insertByCount p x rest).mp hx with rfl | hx
      · exact h
      · exact hl.1 x hx
    · rw [insertByCount, if_neg h]
      rw [List.pairwise_cons]
      refine ⟨?_, List.pairwise_cons.mpr hl⟩
      intro x hx
      rcases List.mem_cons.mp hx with rfl | hx
      · omega
      · exact le_trans (hl.1 x hx) (by omega)

theorem pairwise_sortByCountDesc {α : Type} (l : List (α × Nat)) :
    (sortByCountDesc l).Pairwise (fun a b => b.2 ≤ a.2) := by
  have main : ∀ (l acc : List (α × Nat)),
      acc.Pairwise (fun a b => b.2 ≤ a.2) →
      (List.foldl (fun acc p => insertByCount p acc) acc l).Pairwise
        (fun a b => b.2 ≤ a.2) := by
    intro l
    induction l with
    | nil => intro acc h; simpa using h
    | cons a l ih =>
      intro acc h
      exact ih (insertByCount a acc) (pairwise_insertByCount a acc h)
  simpa [sortByCountDesc] using main l [] (by simp)

/-- When every count is the same, the stable sort is the identity: ties
keep their first-seen order. -/
theorem sortByCountDesc_of_const {α : Type} (l : List (α × Nat)) (c : Nat)
    (h : ∀ q ∈ l, q.2 = c) : sortByCountDesc l = l := by
  have hins : ∀ (p : α × Nat) (acc : List (α × Nat)), p.2 = c →
      (∀ q ∈ acc, q.2 = c) → insertByCount p acc = acc ++ [p] := by
    intro p acc hp hacc
    induction acc with
    | nil => simp [insertByCount]
    | cons q rest ih =>
      rw [insertByCount, if_pos (by rw [hp, hacc q (List.mem_cons_self q rest)])]
      rw [ih (fun q hq => hacc q (List.mem_cons_of_mem _ hq))]
      simp
  have main : ∀ (l acc : List (α × Nat)), (∀ q ∈ l, q.2 = c) →
      (∀ q ∈ acc, q.2 = c) →
      List.foldl (fun acc p => insertByCount p acc) acc l = acc ++ l := by
    intro l
    induction l with
    | nil => intro acc _ _; simp
    | cons a l ih =>
      intro acc hl hacc
      rw [List.foldl_cons, hins a acc (hl a (List.mem_cons_self a l)) hacc]
      rw [ih (acc ++ [a]) (fun q hq => hl q (List.mem_cons_of_mem _ hq))]
      · simp
      · intro q hq
        rcases List.mem_append.mp hq with hq | hq
        · exact hacc q hq
        · rw [List.mem_singleton] at hq
          subst hq
          exact hl q (List.mem_cons_self q l)
  simpa [sortByCountDesc] using main l [] h (by simp)

theorem insertByDate_perm (p : Int × Nat) (l : List (Int × Nat)) :
    (insertByDate p l).Perm (p :: l) := by
  induction l with
  | nil => simp [insertByDate]
  | cons q rest ih =>
    by_cases h : q.1 ≤ p.1
    · rw [insertByDate, if_pos h]
      exact (ih.cons q).trans (List.Perm.swap p q rest)
    · rw [insertByDate, if_neg h]

theorem sortByDateAsc_perm (l : List (Int × Nat)) :
    (sortByDateAsc l).Perm l := by
  have main : ∀ (l acc : List (Int × Nat)),
      (List.foldl (fun acc p => insertByDate p acc) acc l).Perm (acc ++ l) := by
    intro l
    induction l with
    | nil => simp
    | cons a l ih =>
      intro acc
      rw [List.foldl_cons]
      refine (ih (insertByDate a acc)).trans ?_
      refine (((insertByDate_perm a acc).append_right l).trans ?_)
      exact List.perm_middle.symm
  simpa [sortByDateAsc] using main l []

theorem mem_insertByDate (p x : Int × Nat) (l : List (Int × Nat)) :
    x ∈ insertByDate p l ↔ x = p ∨ x ∈ l := by
  rw [(insertByDate_perm p l).mem_iff, List.mem_cons]

theorem pairwise_insertByDate (p : Int × Nat) (l : List (Int × Nat))
    (hl : l.Pairwise (fun a b => a.1 ≤ b.1)) :
    (insertByDate p l).Pairwise (fun a b => a.1 ≤ b.1) := by
  induction l with
  | nil => simp [insertByDate]
  | cons q rest ih =>
    rw [List.pairwise_cons] at hl
    by_cases h : q.1 ≤ p.1
    · rw [insertByDate, if_pos h]
      rw [List.pairwise_cons]
      refine ⟨?_, ih hl.2⟩
      intro x hx
      rcases (mem_insertByDate p x rest).mp hx with rfl | hx
      · exact h
      · exact hl.1 x hx
    · rw [insertByDate, if_neg h]
      rw [List.pairwise_cons]
      refine ⟨?_, List.pairwise_cons.mpr hl⟩
      intro x hx
      rcases List.mem_cons.mp hx with rfl | hx
      · omega
      · exact le_trans (by omega) (hl.1 x hx)

theorem pairwise_sortByDateAsc (l : List (Int × Nat)) :
    (sortByDateAsc l).Pairwise (fun a b => a.1 ≤ b.1) := by
  have main : ∀ (l acc : List (Int × Nat)),
      acc.Pairwise (fun a b => a.1 ≤ b.1) →
      (List.foldl (fun acc p => insertByDate p acc) acc l).Pairwise
        (fun a b => a.1 ≤ b.1) := by
    intro l
    induction l with
    | nil => intro acc h; simpa using h
    | cons a l ih =>
      intro acc h
      exact ih (insertByDate a acc) (pairwise_insertByDate a acc h)
  simpa [sortByDateAsc] using main l [] (by simp)

theorem firstIdx_append_of_mem {α : Type} [DecidableEq α]
    (l₁ l₂ : List α) (x : α) (h : x ∈ l₁) :
    firstIdx (l₁ ++ l₂) x = firstIdx l₁ x := by
  induction l₁ with
  | nil => simp at h
  | cons y rest ih =>
    by_cases hy : y = x
    · simp [firstIdx, List.cons_append, hy]
    · rcases List.mem_cons.mp h with h' | h'
      · exact absurd h'.symm hy
      · simp [firstIdx, List.cons_append, hy, ih h']

theorem firstIdx_append_of_not_mem {α : Type} [DecidableEq α]
    (l₁ l₂ : List α) (x : α) (h : x ∉ l₁) :
    firstIdx (l₁ ++ l₂) x = l₁.length + firstIdx l₂ x := by
  induction l₁ with
  | nil => simp [firstIdx]
  | cons y rest ih =>
    have hy : ¬ y = x := fun hc => h (hc ▸ List.mem_cons_self y rest)
    have hr : x ∉ rest := fun hc => h (List.mem_cons_of_mem y hc)
    simp [firstIdx, List.cons_append, hy, ih hr]
    omega

theorem firstIdx_lt_length {α : Type} [DecidableEq α]
    (l : List α) (x : α) (h : x ∈ l) : firstIdx l x < l.length := by
  induction l with
  | nil => simp at h
  | cons y rest ih =>
    by_cases hy : y = x
    · simp [firstIdx, hy]
    · rcases List.mem_cons.mp h with h' | h'
      · exact absurd h'.symm hy
      · simpa [firstIdx, hy, Nat.succ_lt_succ_iff] using ih h'

theorem counterOf_append_singleton {α : Type} [DecidableEq α]
    (xs : List α) (a : α) :
    counterOf (xs ++ [a]) = bumpCount (counterOf xs) a := by
  rw [counterOf, counterOf, List.foldl_append]
  rfl

/-- Counter keys appear in first-seen order: their first occurrences in
the counted list are strictly increasing. -/
theorem keysOf_counterOf_firstIdx {α : Type} [DecidableEq α] (kws : List α) :
    (keysOf (counterOf kws)).Pairwise
      (fun x y => firstIdx kws x < firstIdx kws y) := by
  induction kws using List.reverseRecOn with
  | nil => simp [counterOf, keysOf]
  | append_singleton xs a ih =>
    rw [counterOf_append_singleton, keysOf_bumpCount]
    by_cases hm : a ∈ keysOf (counterOf xs)
    · rw [if_pos hm]
      refine List.Pairwise.imp_of_mem ?_ ih
      intro x y hx hy hR
      rw [firstIdx_append_of_mem _ _ _ ((mem_keysOf_counterOf xs x).mp hx),
        firstIdx_append_of_mem _ _ _ ((mem_keysOf_counterOf xs y).mp hy)]
      exact hR
    · rw [if_neg hm, List.pairwise_append]
      refine ⟨List.Pairwise.imp_of_mem ?_ ih, List.pairwise_singleton _ _, ?_⟩
      · intro x y hx hy hR
        rw [firstIdx_append_of_mem _ _ _ ((mem_keysOf_counterOf xs x).mp hx),
          firstIdx_append_of_mem _ _ _ ((mem_keysOf_counterOf xs y).mp hy)]
        exact hR
      · intro x hx y hy
        rw [List.mem_singleton] at hy
        subst hy
        have hx' : x ∈ xs := (mem_keysOf_counterOf xs x).mp hx
        have ha : y ∉ xs := fun hc => hm ((mem_keysOf_counterOf xs y).mpr hc)
        rw [firstIdx_append_of_mem _ _ _ hx',
          firstIdx_append_of_not_mem _ _ _ ha]
        have := firstIdx_lt_length xs x hx'
        omega

/-- Stable insertion: inserting an element that every accumulated entry
precedes (in the `S` order) keeps the output sorted by descending count
with `S` deciding ties. -/
theorem pairwise_insertByCount_stable {α : Type}
    (S : (α × Nat) → (α × Nat) → Prop) (p : α × Nat) (l : List (α × Nat))
    (hl : l.Pairwise (fun a b => b.2 < a.2 ∨ (a.2 = b.2 ∧ S a b)))
    (hS : ∀ q ∈ l, S q p) :
    (insertByCount p l).Pairwise
      (fun a b => b.2 < a.2 ∨ (a.2 = b.2 ∧ S a b)) := by
  induction l with
  | nil => simp [insertByCount]
  | cons q rest ih =>
    rw [List.pairwise_cons] at hl
    by_cases h : p.2 ≤ q.2
    · rw [insertByCount, if_pos h, List.pairwise_cons]
      refine ⟨?_, ih hl.2 (fun r hr => hS r (List.mem_cons_of_mem q hr))⟩
      intro x hx
      rcases (mem_insertByCount p x rest).mp hx with rfl | hx
      · rcases lt_or_eq_of_le h with hlt | heq
        · exact Or.inl hlt
        · exact Or.inr ⟨heq.symm, hS q (List.mem_cons_self q rest)⟩
      · exact hl.1 x hx
    · rw [insertByCount, if_neg h, List.pairwise_cons]
      refine ⟨?_, List.pairwise_cons.mpr hl⟩
      intro x hx
      rcases List.mem_cons.mp hx with rfl | hx
      · exact Or.inl (by omega)
      · rcases hl.1 x hx with h1 | ⟨h2, _⟩
        · exact Or.inl (by omega)
        · exact Or.inl (by omega)

/-- Stability of the whole sort: when the input is `S`-increasing, the
output is sorted by strictly descending count with ties in input (i.e.
`S`) order. -/
theorem pairwise_sortByCountDesc_stable {α : Type}
    (S : (α × Nat) → (α × Nat) → Prop) (l : List (α × Nat))
    (hl : l.Pairwise S) :
    (sortByCountDesc l).Pairwise
      (fun a b => b.2 < a.2 ∨ (a.2 = b.2 ∧ S a b)) := by
  have main : ∀ (l acc : List (α × Nat)),
      acc.Pairwise (fun a b => b.2 < a.2 ∨ (a.2 = b.2 ∧ S a b)) →
      (∀ p ∈ l, ∀ q ∈ acc, S q p) → l.Pairwise S →
      (List.foldl (fun acc p => insertByCount p acc) acc l).Pairwise
        (fun a b => b.2 < a.2 ∨ (a.2 = b.2 ∧ S a b)) := by
    intro l
    induction l with
    | nil => intro acc hacc _ _; simpa using hacc
    | cons a l ih =>
      intro acc hacc hcross hS
      rw [List.pairwise_cons] at hS
      rw [List.foldl_cons]
      refine ih (insertByCount a acc)
        (pairwise_insertByCount_stable S a acc hacc
          (fun q hq => hcross a (List.mem_cons_self a l) q hq)) ?_ hS.2
      intro p hp q hq
      rcases (mem_insertByCount a q acc).mp hq with rfl | hq
      · exact hS.1 p hp
      · exact hcross p (List.mem_cons_of_mem a hp) q hq
  simpa [sortByCountDesc] using main l [] (by simp) (by simp) hl

end ParentBrowser

namespace ParentBrowser

theorem sumVals_bumpCount {α : Type} [DecidableEq α]
    (l : List (α × Nat)) (x : α) :
    sumVals (bumpCount l x) = sumVals l + 1 := by
  induction l with
  | nil => simp [bumpCount, sumVals]
  | cons q rest ih =>
    obtain ⟨z, n⟩ := q
    by_cases hz : z = x
    · subst hz; simp [bumpCount, sumVals]; omega
    · simp [bumpCount, sumVals, hz] at ih ⊢
      omega

/-- The counter's values total the length of the counted list. -/
theorem sumVals_counterOf {α : Type} [DecidableEq α] (xs : List α) :
    sumVals (counterOf xs) = xs.length := by
  have main : ∀ (xs : List α) (acc : List (α × Nat)),
      sumVals (List.foldl bumpCount acc xs) = sumVals acc + xs.length := by
    intro xs
    induction xs with
    | nil => simp
    | cons a xs ih =>
      intro acc
      rw [List.foldl_cons, ih, sumVals_bumpCount]
      simp; omega
  simpa [counterOf, sumVals] using main xs []

/-- The counter has one entry per distinct element. -/
theorem length_counterOf {α : Type} [DecidableEq α] (xs : List α) :
    (counterOf xs).length = xs.dedup.length := by
  calc (counterOf xs).length
      = (keysOf (counterOf xs)).length := (List.length_map _ _).symm
    _ = (keysOf (counterOf xs)).toFinset.card :=
        (List.toFinset_card_of_nodup (nodup_keysOf_counterOf xs)).symm
    _ = xs.toFinset.card := by
        congr 1
        ext a
        simp [List.mem_toFinset, mem_keysOf_counterOf]
    _ = xs.dedup.length := List.card_toFinset xs

theorem bumpCount_not_mem {α : Type} [DecidableEq α]
    (l : List (α × Nat)) (x : α) (h : x ∉ keysOf l) :
    bumpCount l x = l ++ [(x, 1)] := by
  induction l with
  | nil => simp [bumpCount]
  | cons q rest ih =>
    obtain ⟨z, n⟩ := q
    simp only [keysOf, List.map_cons, List.mem_cons] at h
    push_neg at h
    rw [bumpCount, if_neg (fun hc => h.1 hc.symm), ih (by simpa [keysOf] using h.2)]
    simp

/-- Counting a duplicate-free list tags every element with count 1, in
order. -/
theorem counterOf_nodup {α : Type} [DecidableEq α] (xs : List α)
    (h : xs.Nodup) : counterOf xs = xs.map (fun x => (x, 1)) := by
  have main : ∀ (xs : List α) (acc : List (α × Nat)),
      (∀ x ∈ xs, x ∉ keysOf acc) → xs.Nodup →
      List.foldl bumpCount acc xs = acc ++ xs.map (fun x => (x, 1)) := by
    intro xs
    induction xs with
    | nil => intro acc _ _; simp
    | cons a xs ih =>
      intro acc hdisj hnd
      rw [List.foldl_cons,
        bumpCount_not_mem acc a (hdisj a (List.mem_cons_self a xs))]
      rw [List.nodup_cons] at hnd
      rw [ih (acc ++ [(a, 1)]) ?_ hnd.2]
      · simp
      · intro x hx
        rw [keysOf, List.map_append, List.mem_append]
        push_neg
        refine ⟨hdisj x (List.mem_cons_of_mem a hx), ?_⟩
        simp only [List.map_cons, List.map_nil, List.mem_singleton]
        exact fun hc => hnd.1 (hc ▸ hx)
  simpa [counterOf] using main xs [] (by simp [keysOf]) h

/-- Projection: the searched-keywords field of the aggregation. -/
theorem update_searchedKeywords (dateOf : Nat → Int)
    (prior : Option Intelligence) (device_key : String) (blocks : List Block)
    (flag : Bool) (now : String) :
    (update_behavioral_data_from_blockchain dateOf prior device_key blocks
        flag now).behavioralData.searchedKeywords
      = (mostCommon 100 (blocks.map (fun b => b.keyword))).map
          (fun p =>
            { keyword := p.1, frequency := p.2, sentiment := 0,
              category := "neutral", timestamp := now }) := by
  cases prior <;> rfl

/-- Projection: the screen-time field of the aggregation. -/
theorem update_screenTimeData (dateOf : Nat → Int)
    (prior : Option Intelligence) (device_key : String) (blocks : List Block)
    (flag : Bool) (now : String) :
    (update_behavioral_data_from_blockchain dateOf prior device_key blocks
        flag now).behavioralData.screenTimeData
      = { dailyScreenTime := lastN 30 (screenTimeEntries dateOf blocks)
          weeklyAverage := weeklyAverageOf (screenTimeEntries dateOf blocks)
          lateNightSessions := 0
          avgSleepTime := "22:00" } := by
  cases prior <;> rfl

end ParentBrowser

open ParentBrowser in
/-- C4 counterexample: two runs of the aggregation on the identical
(empty) intelligence state and identical (empty) blockchain data, taken
at two different clock readings, give different outputs — the function
stamps `datetime.now()` into `lastSync`, `lastUpdated`, and the
per-entry timestamps, so it is not a function of state and ledger
alone. -/
theorem C4_counterexample_clock_dependence :
    update_behavioral_data_from_blockchain (fun _ => 0) none "k" [] true
        "2025-01-01T00:00:00"
      ≠ update_behavioral_data_from_blockchain (fun _ => 0) none "k" [] true
        "2025-01-02T00:00:00" := by
  decide

open ParentBrowser in
/-- C4 (amended): the aggregation is a pure function of the intelligence
state, the blockchain data, and the current clock reading: with the
clock reading fixed the output is bit-identical, and the clock reading
influences only the stamped timestamp fields (everything else is
identical across runs at different times). -/
theorem C4_pure_given_clock :
    ∀ (dateOf : Nat → Int) (prior : Option Intelligence) (key : String)
      (blocks : List Block) (flag : Bool) (t t' : String),
      stripClock (update_behavioral_data_from_blockchain dateOf prior key
          blocks flag t)
        = stripClock (update_behavioral_data_from_blockchain dateOf prior key
            blocks flag t') ∧
      (t = t' →
        update_behavioral_data_from_blockchain dateOf prior key blocks flag t
          = update_behavioral_data_from_blockchain dateOf prior key blocks
              flag t') := by
  intro dateOf prior key blocks flag t t'
  constructor
  · cases prior <;>
      simp [update_behavioral_data_from_blockchain, stripClock, List.map_map,
        Function.comp]
  · rintro rfl; rfl

open ParentBrowser in
/-- C4 witness: the amended theorem applied at concrete inputs — equal
stripped outputs across two clock readings, and bit-identical output
when the reading coincides. -/
theorem C4_witness_concrete_runs :
    stripClock (update_behavioral_data_from_blockchain (fun _ => 0) none "k"
        [gBlock] true "t1")
      = stripClock (update_behavioral_data_from_blockchain (fun _ => 0) none
          "k" [gBlock] true "t2") ∧
    update_behavioral_data_from_blockchain (fun _ => 0) none "k" [gBlock] true
        "t1"
      = update_behavioral_data_from_blockchain (fun _ => 0) none "k" [gBlock]
          true "t1" :=
  ⟨(C4_pure_given_clock (fun _ => 0) none "k" [gBlock] true "t1" "t2").1,
    (C4_pure_given_clock (fun _ => 0) none "k" [gBlock] true "t1" "t1").2 rfl⟩

open ParentBrowser in
/-- C7 (confirmed): the keyword aggregate counts occurrences over the
whole ledger and keeps exactly the top 100 by descending frequency with
ties in first-seen order: entries are ordered by strictly descending
frequency with equal-frequency entries ordered by their keyword's first
occurrence in the chain, each entry's frequency is its keyword's
occurrence count, the output has one entry per distinct keyword up to
the cap of 100, every keyword left out has a count no larger than any
kept entry's frequency, and on a ledger of 150 blocks with
pairwise-distinct keywords the output is exactly the first 100 chain
keywords, each with frequency 1. -/
theorem C7_keyword_top100_by_frequency_ties_first_seen :
    (∀ (dateOf : Nat → Int) (prior : Option Intelligence) (key : String)
        (blocks : List Block) (flag : Bool) (now : String),
        ((update_behavioral_data_from_blockchain dateOf prior key blocks flag
            now).behavioralData.searchedKeywords).Pairwise
          (fun a b => b.frequency < a.frequency ∨
            (a.frequency = b.frequency ∧
              firstIdx (blocks.map (fun b => b.keyword)) a.keyword
                < firstIdx (blocks.map (fun b => b.keyword)) b.keyword)) ∧
        (∀ e ∈ (update_behavioral_data_from_blockchain dateOf prior key blocks
            flag now).behavioralData.searchedKeywords,
          e.frequency = (blocks.map (fun b => b.keyword)).count e.keyword) ∧
        ((update_behavioral_data_from_blockchain dateOf prior key blocks flag
            now).behavioralData.searchedKeywords).length
          = min 100 ((blocks.map (fun b => b.keyword)).dedup.length) ∧
        (∀ k ∈ blocks.map (fun b => b.keyword),
          k ∉ ((update_behavioral_data_from_blockchain dateOf prior key blocks
              flag now).behavioralData.searchedKeywords).map
            (fun e => e.keyword) →
          ∀ e ∈ (update_behavioral_data_from_blockchain dateOf prior key
              blocks flag now).behavioralData.searchedKeywords,
            (blocks.map (fun b => b.keyword)).count k ≤ e.frequency)) ∧
    (∀ (dateOf : Nat → Int) (prior : Option Intelligence) (key : String)
        (blocks : List Block) (flag : Bool) (now : String),
        blocks.length = 150 → (blocks.map (fun b => b.keyword)).Nodup →
        (update_behavioral_data_from_blockchain dateOf prior key blocks flag
            now).behavioralData.searchedKeywords
          = ((blocks.map (fun b => b.keyword)).take 100).map
              (fun kw =>
                { keyword := kw, frequency := 1, sentiment := 0,
                  category := "neutral", timestamp := now }) ∧
        ((update_behavioral_data_from_blockchain dateOf prior key blocks flag
            now).behavioralData.searchedKeywords).length = 100) := by
  constructor
  · intro dateOf prior key blocks flag now
    refine ⟨?_, ?_, ?_, ?_⟩
    · rw [update_searchedKeywords, List.pairwise_map, mostCommon]
      have hS := keysOf_counterOf_firstIdx (blocks.map (fun b => b.keyword))
      rw [keysOf, List.pairwise_map] at hS
      exact List.Pairwise.sublist (List.take_sublist _ _)
        (pairwise_sortByCountDesc_stable _ _ hS)
    · intro e he
      rw [update_searchedKeywords] at he
      obtain ⟨p, hp, rfl⟩ := List.mem_map.mp he
      rw [mostCommon] at hp
      have hp' : p ∈ sortByCountDesc
          (counterOf (blocks.map (fun b => b.keyword))) :=
        List.mem_of_mem_take hp
      have hmem : p ∈ counterOf (blocks.map (fun b => b.keyword)) :=
        (sortByCountDesc_perm _).mem_iff.mp hp'
      have hv := countVal_of_mem _ (nodup_keysOf_counterOf _) p hmem
      rw [countVal_counterOf] at hv
      exact hv.symm
    · rw [update_searchedKeywords, mostCommon, List.length_map,
        List.length_take, (sortByCountDesc_perm _).length_eq, length_counterOf]
    · intro k hk hnot e he
      rw [update_searchedKeywords] at he
      obtain ⟨q, hq, rfl⟩ := List.mem_map.mp he
      rw [mostCommon] at hq
      have hkk : k ∈ keysOf (counterOf (blocks.map (fun b => b.keyword))) :=
        (mem_keysOf_counterOf _ _).mpr hk
      rw [keysOf] at hkk
      obtain ⟨p, hpmem, hpk⟩ := List.mem_map.mp hkk
      have hpS : p ∈ sortByCountDesc
          (counterOf (blocks.map (fun b => b.keyword))) :=
        (sortByCountDesc_perm _).mem_iff.mpr hpmem
      have hsplit := List.take_append_drop 100
        (sortByCountDesc (counterOf (blocks.map (fun b => b.keyword))))
      have hpw : (List.take 100
          (sortByCountDesc (counterOf (blocks.map (fun b => b.keyword))))
            ++ List.drop 100
              (sortByCountDesc
                (counterOf (blocks.map (fun b => b.keyword))))).Pairwise
          (fun a b => b.2 ≤ a.2) := by
        rw [hsplit]
        exact pairwise_sortByCountDesc _
      rw [← hsplit] at hpS
      rcases List.mem_append.mp hpS with htake | hdrop
      · exfalso
        apply hnot
        rw [update_searchedKeywords, mostCommon, ← hpk]
        exact List.mem_map_of_mem _ (List.mem_map_of_mem _ htake)
      · have hle := (List.pairwise_append.mp hpw).2.2 q hq p hdrop
        have hv := countVal_of_mem _ (nodup_keysOf_counterOf _) p hpmem
        rw [countVal_counterOf] at hv
        rw [← hpk, hv]
        exact hle
  · intro dateOf prior key blocks flag now hlen hnd
    have hkw := counterOf_nodup (blocks.map (fun b => b.keyword)) hnd
    constructor
    · rw [update_searchedKeywords, mostCommon, hkw,
        sortByCountDesc_of_const _ 1 (by simp)]
      simp only [List.map_take, List.map_map]
      rfl
    · rw [update_searchedKeywords, mostCommon, hkw,
        sortByCountDesc_of_const _ 1 (by simp)]
      simp [List.length_take, hlen]

open ParentBrowser in
/-- C7 witness: on the concrete 150-block ledger with distinct keywords
the aggregate returns exactly 100 entries, and the dropped keyword
`"100"` has a count no larger than the kept entry for `"0"`. -/
theorem C7_witness_150_distinct_keywords :
    ((update_behavioral_data_from_blockchain (fun _ => 0) none "k"
        (kwBlocks 150) true "t").behavioralData.searchedKeywords).length
      = 100 ∧
    ((kwBlocks 150).map (fun b => b.keyword)).count "100"
      ≤ ({ keyword := "0", frequency := 1, sentiment := 0,
            category := "neutral", timestamp := "t" } : KeywordEntry).frequency := by
  obtain ⟨hgen, hspec⟩ := C7_keyword_top100_by_frequency_ties_first_seen
  refine ⟨(hspec (fun _ => 0) none "k" (kwBlocks 150) true "t"
    (by simp [kwBlocks]) (by decide)).2, ?_⟩
  exact (hgen (fun _ => 0) none "k" (kwBlocks 150) true "t").2.2.2 "100"
    (by decide) (by decide)
    { keyword := "0", frequency := 1, sentiment := 0,
      category := "neutral", timestamp := "t" } (by decide)

namespace ParentBrowser

/-- Each day's minutes are twice that day's block count. -/
theorem screenTimeEntries_minutes (dateOf : Nat → Int) (blocks : List Block) :
    ∀ e ∈ screenTimeEntries dateOf blocks,
      e.minutes = 2 * ((blockDates dateOf blocks).count e.date) := by
  intro e he
  rw [screenTimeEntries] at he
  obtain ⟨p, hp, rfl⟩ := List.mem_map.mp he
  have hmem : p ∈ counterOf (blockDates dateOf blocks) :=
    (sortByDateAsc_perm _).mem_iff.mp hp
  have hv := countVal_of_mem _ (nodup_keysOf_counterOf _) p hmem
  rw [countVal_counterOf] at hv
  show 2 * p.2 = 2 * ((blockDates dateOf blocks).count p.1)
  rw [hv]

/-- The per-day entries carry strictly increasing dates. -/
theorem screenTimeEntries_pairwise (dateOf : Nat → Int) (blocks : List Block) :
    (screenTimeEntries dateOf blocks).Pairwise (fun a b => a.date < b.date) := by
  rw [screenTimeEntries, List.pairwise_map]
  have h1 := pairwise_sortByDateAsc (counterOf (blockDates dateOf blocks))
  have hker : (keysOf (sortByDateAsc (counterOf (blockDates dateOf blocks)))).Nodup := by
    rw [keysOf]
    exact ((sortByDateAsc_perm _).map Prod.fst).nodup_iff.mpr
      (nodup_keysOf_counterOf _)
  have h2 : (sortByDateAsc (counterOf (blockDates dateOf blocks))).Pairwise
      (fun p q => p.1 ≠ q.1) := by
    rw [keysOf, List.Nodup, List.pairwise_map] at hker
    exact hker
  exact (h1.and h2).imp (fun h => lt_of_le_of_ne h.1 h.2)

/-- One entry per distinct date. -/
theorem screenTimeEntries_length (dateOf : Nat → Int) (blocks : List Block) :
    (screenTimeEntries dateOf blocks).length
      = (blockDates dateOf blocks).dedup.length := by
  rw [screenTimeEntries, List.length_map, (sortByDateAsc_perm _).length_eq,
    length_counterOf]

/-- Minutes total twice the number of counted blocks. -/
theorem screenTimeEntries_sum (dateOf : Nat → Int) (blocks : List Block) :
    ((screenTimeEntries dateOf blocks).map (fun e => e.minutes)).sum
      = 2 * (blockDates dateOf blocks).length := by
  rw [screenTimeEntries, List.map_map]
  have hstep : ((sortByDateAsc (counterOf (blockDates dateOf blocks))).map
      (fun p => 2 * p.2)).sum
        = 2 * ((sortByDateAsc (counterOf (blockDates dateOf blocks))).map
            Prod.snd).sum :=
    List.sum_map_mul_left _ _ _
  have hperm := ((sortByDateAsc_perm
    (counterOf (blockDates dateOf blocks))).map Prod.snd).sum_eq
  have hvals := sumVals_counterOf (blockDates dateOf blocks)
  rw [sumVals] at hvals
  show ((sortByDateAsc (counterOf (blockDates dateOf blocks))).map
    (fun p => 2 * p.2)).sum = 2 * (blockDates dateOf blocks).length
  rw [hstep, hperm, hvals]

/-- The stored weekly average is twice the counted blocks over the
number of distinct days (0 over 0 when no day has data). -/
theorem weeklyAverage_formula (dateOf : Nat → Int) (blocks : List Block) :
    weeklyAverageOf (screenTimeEntries dateOf blocks)
      = 2 * (blockDates dateOf blocks).length
          / (blockDates dateOf blocks).dedup.length := by
  rw [weeklyAverageOf]
  by_cases he : (screenTimeEntries dateOf blocks).isEmpty = true
  · rw [if_pos he]
    have h0 : (blockDates dateOf blocks).dedup.length = 0 := by
      rw [← screenTimeEntries_length dateOf blocks, List.isEmpty_iff.mp he]
      rfl
    rw [h0, Nat.div_zero]
  · rw [if_neg he, screenTimeEntries_sum, screenTimeEntries_length]

end ParentBrowser

open ParentBrowser in
/-- C8 (confirmed): the daily screen-time aggregate groups blocks by
calendar date of their millisecond timestamp (skipping zero timestamps),
gives each day twice its block count in minutes, keeps at most the 30
most recent days in strictly ascending date order (every omitted day
predates every kept one), and stores as weekly average the floor of
total minutes over the number of days present in the data. -/
theorem C8_daily_screen_time_aggregate :
    ∀ (dateOf : Nat → Int) (prior : Option Intelligence) (key : String)
      (blocks : List Block) (flag : Bool) (now : String),
      (∀ e ∈ (update_behavioral_data_from_blockchain dateOf prior key blocks
          flag now).behavioralData.screenTimeData.dailyScreenTime,
        e.minutes = 2 * ((blockDates dateOf blocks).count e.date)) ∧
      ((update_behavioral_data_from_blockchain dateOf prior key blocks flag
          now).behavioralData.screenTimeData.dailyScreenTime).Pairwise
        (fun a b => a.date < b.date) ∧
      ((update_behavioral_data_from_blockchain dateOf prior key blocks flag
          now).behavioralData.screenTimeData.dailyScreenTime).length ≤ 30 ∧
      (∀ d ∈ blockDates dateOf blocks,
        d ∉ ((update_behavioral_data_from_blockchain dateOf prior key blocks
            flag now).behavioralData.screenTimeData.dailyScreenTime).map
          (fun e => e.date) →
        ∀ e ∈ (update_behavioral_data_from_blockchain dateOf prior key blocks
            flag now).behavioralData.screenTimeData.dailyScreenTime,
          d < e.date) ∧
      (update_behavioral_data_from_blockchain dateOf prior key blocks flag
          now).behavioralData.screenTimeData.weeklyAverage
        = 2 * (blockDates dateOf blocks).length
            / (blockDates dateOf blocks).dedup.length := by
  intro dateOf prior key blocks flag now
  simp only [update_screenTimeData]
  refine ⟨?_, ?_, ?_, ?_, ?_⟩
  · intro e he
    exact screenTimeEntries_minutes dateOf blocks e
      (List.drop_subset _ _ (by simpa [lastN] using he))
  · exact List.Pairwise.sublist (List.drop_sublist _ _)
      (screenTimeEntries_pairwise dateOf blocks)
  · rw [lastN, List.length_drop]
    omega
  · intro d hd hnot e he
    have hdk : d ∈ keysOf (counterOf (blockDates dateOf blocks)) :=
      (mem_keysOf_counterOf _ _).mpr hd
    rw [keysOf] at hdk
    obtain ⟨p, hpmem, hpd⟩ := List.mem_map.mp hdk
    have hpS : p ∈ sortByDateAsc (counterOf (blockDates dateOf blocks)) :=
      (sortByDateAsc_perm _).mem_iff.mpr hpmem
    have hpe : toScreenEntry p ∈ screenTimeEntries dateOf blocks := by
      rw [screenTimeEntries]
      exact List.mem_map_of_mem toScreenEntry hpS
    have hsplit := List.take_append_drop
      ((screenTimeEntries dateOf blocks).length - 30)
      (screenTimeEntries dateOf blocks)
    have hpw : (List.take ((screenTimeEntries dateOf blocks).length - 30)
        (screenTimeEntries dateOf blocks)
          ++ List.drop ((screenTimeEntries dateOf blocks).length - 30)
            (screenTimeEntries dateOf blocks)).Pairwise
          (fun a b => a.date < b.date) := by
      rw [hsplit]
      exact screenTimeEntries_pairwise dateOf blocks
    rw [← hsplit] at hpe
    rcases List.mem_append.mp hpe with htake | hdrop
    · have hlt := (List.pairwise_append.mp hpw).2.2 (toScreenEntry p) htake e
        (by simpa [lastN] using he)
      rw [← hpd]
      exact hlt
    · exfalso
      apply hnot
      have hmem := List.mem_map_of_mem (fun e : ScreenTimeEntry => e.date) hdrop
      rw [lastN, ← hpd]
      exact hmem
  · exact weeklyAverage_formula dateOf blocks

open ParentBrowser in
/-- C8 witness: on 31 consecutive days of blocks, day 1's kept entry has
2 minutes, the dropped day 0 predates the kept day 1, and the stored
weekly average matches the formula. -/
theorem C8_witness_31_days :
    ({ date := 1, minutes := 2, peakHours := [] } : ScreenTimeEntry).minutes
      = 2 * ((blockDates msDay (dayBlocks 31)).count
          ({ date := 1, minutes := 2, peakHours := [] } : ScreenTimeEntry).date) ∧
    ((0 : Int)
      < ({ date := 1, minutes := 2, peakHours := [] } : ScreenTimeEntry).date) ∧
    (update_behavioral_data_from_blockchain msDay none "k" (dayBlocks 31) true
        "t").behavioralData.screenTimeData.weeklyAverage
      = 2 * (blockDates msDay (dayBlocks 31)).length
          / (blockDates msDay (dayBlocks 31)).dedup.length := by
  obtain ⟨h1, _, _, h4, h5⟩ :=
    C8_daily_screen_time_aggregate msDay none "k" (dayBlocks 31) true "t"
  refine ⟨h1 _ (by decide), h4 0 (by decide) (by decide) _ (by decide), h5⟩
